import Mathlib

/-!
Verification of the filler-word removal core of the `livekitagents` repository.

The embedded code is `livekit/plugins/filler_remover/stt.py`:
* `FillerRemoverSTT._remove_fillers` / `FilteredRecognizeStream._remove_fillers`
  (the pure text filter, embedded as `remove_fillers`),
* `FilteredRecognizeStream.__anext__` (the streaming adapter, embedded as
  `stream_step` for one underlying event and `filtered_stream` /
  `adapter_anext` for the whole iteration),
* `FillerRemoverSTT._recognize_impl` (the batch adapter, embedded as
  `recognize_impl`),
* the lifecycle proxies `push_frame`, `flush` and `aclose`.

Strings are modelled as lists of characters; Python's whitespace handling is
modelled for ASCII whitespace, and `str.lower` by ASCII `Char.toLower`
(the behaviour on exotic Unicode input is outside the model).
-/

namespace FillerRemover

/-- Strings are modelled as lists of characters. -/
abbrev Str := List Char

/-- Whitespace test used by CPython's argument-free `str.split` and
`str.strip` (ASCII whitespace characters). -/
def isWS (c : Char) : Bool :=
  c == ' ' || c == '\t' || c == '\n' || c == '\r' || c == '\x0b' || c == '\x0c'

/-- Accumulator loop of `str.split()` (no separator argument): scans the
string, collecting the current token in `acc` (reversed) and emitting it at
each whitespace boundary.  Mirrors the scanning loop CPython uses. -/
def pySplitGo : Str → Str → List Str
  | acc, [] => if acc.isEmpty then [] else [acc.reverse]
  | acc, c :: cs =>
    if isWS c then
      if acc.isEmpty then pySplitGo [] cs else acc.reverse :: pySplitGo [] cs
    else pySplitGo (c :: acc) cs

/-- Python `text.split()`: the maximal whitespace-free runs of `text`;
leading, trailing and repeated whitespace separators are discarded. -/
def pySplit (s : Str) : List Str := pySplitGo [] s

/-- Python `" ".join(words)`: concatenation with a single space between
consecutive elements. -/
def joinSp : List Str → Str
  | [] => []
  | [t] => t
  | t :: t' :: ts => t ++ ' ' :: joinSp (t' :: ts)

/-- Python `word.lower()` (ASCII case folding in the model). -/
def lowerStr (s : Str) : Str := s.map Char.toLower

/-- Embedding of `FillerRemoverSTT._remove_fillers` (and the identical
`FilteredRecognizeStream._remove_fillers`):
`" ".join(word for word in text.split() if word.lower() not in filler_words)`. -/
def remove_fillers (fillerWords : List Str) (text : Str) : Str :=
  joinSp ((pySplit text).filter (fun word => !(fillerWords.contains (lowerStr word))))

/-- Python `s.strip()` with no argument: removes leading and trailing
whitespace. -/
def pyStrip (s : Str) : Str :=
  ((s.dropWhile isWS).reverse.dropWhile isWS).reverse

/-- Specification-side tokenization, following the spec's words: "tokenizes
`text` by whitespace (any run of whitespace is a separator; leading/trailing
whitespace is discarded)" — split at every whitespace character, then discard
the empty chunks that runs of whitespace and the string's ends produce. -/
def spec_tokens (text : Str) : List Str :=
  (text.splitOnP isWS).filter (fun t => !t.isEmpty)

/-- Specification-side filter, following the spec's words: "exactly the
whitespace-delimited tokens of T whose lower-cased form is not in W, in
original order, single-space joined".  To be compared with the source-derived
`remove_fillers`. -/
def spec_filter (wordList : List Str) (text : Str) : Str :=
  joinSp ((spec_tokens text).filter (fun t => !(wordList.contains (lowerStr t))))

/-- Whitespace normalization: leading/trailing whitespace removed and every
internal run of whitespace collapsed to a single space (stated via the
specification-side tokens). -/
def normalize_ws (s : Str) : Str := joinSp (spec_tokens s)

/-! ### Basic facts about the text functions -/

theorem pySplit_nil : pySplit [] = [] := rfl

theorem pySplit_cons_ws {c : Char} (cs : Str) (h : isWS c = true) :
    pySplit (c :: cs) = pySplit cs := by
  simp [pySplit, pySplitGo, h]

theorem pySplitGo_acc (acc : Str) (hacc : acc ≠ []) : ∀ cs : Str,
    pySplitGo acc cs =
      (acc.reverse ++ cs.takeWhile (fun d => !isWS d)) ::
        pySplit (cs.dropWhile (fun d => !isWS d)) := by
  intro cs
  induction cs generalizing acc with
  | nil =>
    simp [pySplitGo, List.isEmpty_iff, hacc, pySplit]
  | cons c cs ih =>
    by_cases h : isWS c = true
    · have h' : (fun d => !isWS d) c = false := by simp [h]
      simp only [pySplitGo, h, if_pos, List.isEmpty_iff, hacc, if_neg,
        List.takeWhile_cons, List.dropWhile_cons, h']
      simp [pySplit, pySplitGo, h, hacc, List.isEmpty_iff]
    · have hb : isWS c = false := by simpa using h
      have h' : (fun d => !isWS d) c = true := by simp [hb]
      simp only [pySplitGo, hb, Bool.false_eq_true, if_neg, List.takeWhile_cons,
        List.dropWhile_cons, h', if_pos]
      rw [ih (c :: acc) (by simp)]
      simp

theorem pySplit_cons_not_ws {c : Char} (cs : Str) (h : isWS c = false) :
    pySplit (c :: cs) =
      (c :: cs.takeWhile (fun d => !isWS d)) ::
        pySplit (cs.dropWhile (fun d => !isWS d)) := by
  have : pySplit (c :: cs) = pySplitGo [c] cs := by
    simp [pySplit, pySplitGo, h]
  rw [this, pySplitGo_acc [c] (by simp)]
  simp

theorem pySplitGo_nil_ne {acc : Str} (h : acc ≠ []) : pySplitGo acc [] = [acc.reverse] := by
  simp [pySplitGo, List.isEmpty_iff, h]

theorem pySplitGo_cons_ws_ne {acc : Str} {c : Char} (cs : Str) (h : isWS c = true)
    (ha : acc ≠ []) : pySplitGo acc (c :: cs) = acc.reverse :: pySplitGo [] cs := by
  simp [pySplitGo, h, List.isEmpty_iff, ha]

theorem pySplitGo_cons_ws_nil {c : Char} (cs : Str) (h : isWS c = true) :
    pySplitGo [] (c :: cs) = pySplitGo [] cs := by
  simp [pySplitGo, h]

theorem pySplitGo_cons_not_ws {acc : Str} {c : Char} (cs : Str) (h : isWS c = false) :
    pySplitGo acc (c :: cs) = pySplitGo (c :: acc) cs := by
  simp [pySplitGo, h]

theorem pySplitGo_wf : ∀ (cs acc : Str), (∀ c ∈ acc, isWS c = false) →
    ∀ t ∈ pySplitGo acc cs, t ≠ [] ∧ ∀ c ∈ t, isWS c = false := by
  intro cs
  induction cs with
  | nil =>
    intro acc hacc t ht
    by_cases h : acc = []
    · simp [pySplitGo, h] at ht
    · rw [pySplitGo_nil_ne h, List.mem_singleton] at ht
      subst ht
      refine ⟨by simpa using h, ?_⟩
      intro c hc
      exact hacc c (List.mem_reverse.mp hc)
  | cons c cs ih =>
    intro acc hacc t ht
    by_cases h : isWS c = true
    · by_cases ha : acc = []
      · subst ha
        rw [pySplitGo_cons_ws_nil cs h] at ht
        exact ih [] (by simp) t ht
      · rw [pySplitGo_cons_ws_ne cs h ha, List.mem_cons] at ht
        rcases ht with rfl | ht'
        · refine ⟨by simpa using ha, ?_⟩
          intro x hx
          exact hacc x (List.mem_reverse.mp hx)
        · exact ih [] (by simp) t ht'
    · have hb : isWS c = false := by simpa using h
      rw [pySplitGo_cons_not_ws cs hb] at ht
      refine ih (c :: acc) ?_ t ht
      intro x hx
      rcases List.mem_cons.mp hx with rfl | hx'
      · exact hb
      · exact hacc x hx'

/-- Every token produced by `pySplit` is nonempty and whitespace-free. -/
theorem pySplit_wf (s : Str) : ∀ t ∈ pySplit s, t ≠ [] ∧ ∀ c ∈ t, isWS c = false :=
  pySplitGo_wf s [] (by simp)

/-- Splitting a whitespace-free nonempty string gives back that one token. -/
theorem pySplit_all_sat {s : Str} (hne : s ≠ []) (hws : ∀ c ∈ s, isWS c = false) :
    pySplit s = [s] := by
  obtain ⟨c, cs, rfl⟩ := List.exists_cons_of_ne_nil hne
  rw [pySplit_cons_not_ws cs (hws c (by simp))]
  have h1 : cs.takeWhile (fun d => !isWS d) = cs :=
    List.takeWhile_eq_self_iff.mpr (by intro x hx; simp [hws x (List.mem_cons_of_mem c hx)])
  have h2 : cs.dropWhile (fun d => !isWS d) = [] :=
    List.dropWhile_eq_nil_iff.mpr (by intro x hx; simp [hws x (List.mem_cons_of_mem c hx)])
  rw [h1, h2, pySplit_nil]

/-- Splitting `s ++ " " ++ r` where `s` is a nonempty whitespace-free token
peels off `s` and continues with `r`. -/
theorem pySplit_append_space {s r : Str} (hne : s ≠ []) (hws : ∀ c ∈ s, isWS c = false) :
    pySplit (s ++ ' ' :: r) = s :: pySplit r := by
  obtain ⟨c, cs, rfl⟩ := List.exists_cons_of_ne_nil hne
  have hcons : (c :: cs) ++ ' ' :: r = c :: (cs ++ ' ' :: r) := by simp
  rw [hcons, pySplit_cons_not_ws _ (hws c (by simp))]
  have hcs : ∀ a ∈ cs, (fun d => !isWS d) a = true := by
    intro a ha; simp [hws a (List.mem_cons_of_mem c ha)]
  have h1 : (cs ++ ' ' :: r).takeWhile (fun d => !isWS d) = cs := by
    rw [List.takeWhile_append_of_pos hcs]
    simp [List.takeWhile_cons, isWS]
  have h2 : (cs ++ ' ' :: r).dropWhile (fun d => !isWS d) = ' ' :: r := by
    rw [List.dropWhile_append_of_pos hcs]
    simp [List.dropWhile_cons, isWS]
  rw [h1, h2, pySplit_cons_ws r (by simp [isWS])]

/-- Round trip: splitting a single-space join of nonempty whitespace-free
tokens recovers exactly those tokens. -/
theorem pySplit_joinSp : ∀ ts : List Str,
    (∀ t ∈ ts, t ≠ [] ∧ ∀ c ∈ t, isWS c = false) → pySplit (joinSp ts) = ts := by
  intro ts
  induction ts with
  | nil => intro _; simp [joinSp, pySplit_nil]
  | cons t ts ih =>
    intro h
    cases ts with
    | nil =>
      have := h t (by simp)
      simpa [joinSp] using pySplit_all_sat this.1 this.2
    | cons t' ts' =>
      have ht := h t (by simp)
      have : joinSp (t :: t' :: ts') = t ++ ' ' :: joinSp (t' :: ts') := by simp [joinSp]
      rw [this, pySplit_append_space ht.1 ht.2,
        ih (fun u hu => h u (List.mem_cons_of_mem t hu))]

/-- The filtered token list of `remove_fillers` consists of nonempty
whitespace-free tokens. -/
theorem remove_fillers_tokens_wf (W : List Str) (T : Str) :
    ∀ t ∈ (pySplit T).filter (fun word => !(W.contains (lowerStr word))),
      t ≠ [] ∧ ∀ c ∈ t, isWS c = false :=
  fun t ht => pySplit_wf T t (List.mem_of_mem_filter ht)

theorem dropWhile_head_not {α : Type} {p : α → Bool} :
    ∀ {l t : List α} {a : α}, l.dropWhile p = a :: t → p a = false := by
  intro l
  induction l with
  | nil => intro t a h; simp at h
  | cons x xs ih =>
    intro t a h
    rw [List.dropWhile_cons] at h
    by_cases hx : p x = true
    · rw [if_pos hx] at h
      exact ih h
    · rw [if_neg hx] at h
      cases h
      simpa using hx

theorem pyStrip_nil : pyStrip [] = [] := rfl

/-- Stripping yields the empty string exactly when the whole string is
whitespace. -/
theorem pyStrip_eq_nil_iff (s : Str) : pyStrip s = [] ↔ ∀ c ∈ s, isWS c = true := by
  unfold pyStrip
  rw [List.reverse_eq_nil_iff, List.dropWhile_eq_nil_iff]
  constructor
  · intro h c hc
    have hs := List.takeWhile_append_dropWhile isWS s
    rw [← hs, List.mem_append] at hc
    rcases hc with h1 | h2
    · exact List.mem_takeWhile_imp h1
    · exact h c (List.mem_reverse.mpr h2)
  · intro h c hc
    exact h c (List.Sublist.mem (List.mem_reverse.mp hc) (List.dropWhile_sublist isWS))

/-- A single-space join of well-formed tokens is empty or starts with a
non-whitespace character. -/
theorem joinSp_wf_head : ∀ ts : List Str,
    (∀ t ∈ ts, t ≠ [] ∧ ∀ c ∈ t, isWS c = false) →
    ts = [] ∨ ∃ c rest, joinSp ts = c :: rest ∧ isWS c = false := by
  intro ts h
  cases ts with
  | nil => exact Or.inl rfl
  | cons t ts' =>
    right
    obtain ⟨hne, hchars⟩ := h t (by simp)
    obtain ⟨c, cs, rfl⟩ := List.exists_cons_of_ne_nil hne
    cases ts' with
    | nil => exact ⟨c, cs, by simp [joinSp], hchars c (by simp)⟩
    | cons u us =>
      exact ⟨c, cs ++ ' ' :: joinSp (u :: us), by simp [joinSp], hchars c (by simp)⟩

/-- The filtered text strips to empty exactly when it is empty: `remove_fillers`
never returns a whitespace-only nonempty string. -/
theorem pyStrip_remove_fillers_eq_nil_iff (W : List Str) (T : Str) :
    pyStrip (remove_fillers W T) = [] ↔ remove_fillers W T = [] := by
  constructor
  · intro h
    rcases joinSp_wf_head _ (remove_fillers_tokens_wf W T) with hnil | ⟨c, rest, hj, hc⟩
    · rw [remove_fillers, hnil]
      rfl
    · exfalso
      have hmem : c ∈ remove_fillers W T := by
        rw [remove_fillers, hj]
        simp
      have := (pyStrip_eq_nil_iff _).mp h c hmem
      rw [this] at hc
      simp at hc
  · intro h
    rw [h]
    rfl

/-- The implementation tokenization agrees with the specification-side
tokenization (split at every whitespace character, drop empty chunks). -/
theorem pySplit_eq_spec_tokens (s : Str) : pySplit s = spec_tokens s := by
  generalize hn : s.length = n
  induction n using Nat.strong_induction_on generalizing s with
  | _ n ih =>
    cases s with
    | nil => simp [pySplit_nil, spec_tokens, List.splitOnP_nil]
    | cons c cs =>
      by_cases h : isWS c = true
      · rw [pySplit_cons_ws cs h]
        have h1 : spec_tokens (c :: cs) = spec_tokens cs := by
          unfold spec_tokens
          rw [List.splitOnP_cons]
          simp [h]
        rw [h1]
        exact ih cs.length (by simp at hn; omega) cs rfl
      · have hb : isWS c = false := by simpa using h
        rw [pySplit_cons_not_ws cs hb]
        cases hd : cs.dropWhile (fun d => !isWS d) with
        | nil =>
          have hall : ∀ x ∈ cs, isWS x = false := by
            intro x hx
            have := List.dropWhile_eq_nil_iff.mp hd x hx
            simpa using this
          have htk : cs.takeWhile (fun d => !isWS d) = cs :=
            List.takeWhile_eq_self_iff.mpr (by intro x hx; simp [hall x hx])
          have hsingle : (c :: cs).splitOnP isWS = [c :: cs] := by
            apply List.splitOnP_eq_single
            intro x hx
            rcases List.mem_cons.mp hx with rfl | hx'
            · simp [hb]
            · simp [hall x hx']
          rw [htk, pySplit_nil]
          unfold spec_tokens
          rw [hsingle]
          simp
        | cons w d' =>
          have hw : isWS w = true := by
            have := dropWhile_head_not hd
            simpa using this
          have hdecomp : cs = cs.takeWhile (fun d => !isWS d) ++ w :: d' := by
            conv_lhs => rw [← List.takeWhile_append_dropWhile (fun d => !isWS d) cs]
            rw [hd]
          have htkchars : ∀ x ∈ c :: cs.takeWhile (fun d => !isWS d), ¬ isWS x := by
            intro x hx
            rcases List.mem_cons.mp hx with rfl | hx'
            · simp [hb]
            · have := List.mem_takeWhile_imp hx'
              simp at this
              simp [this]
          have hfirst : (c :: cs).splitOnP isWS =
              (c :: cs.takeWhile (fun d => !isWS d)) :: d'.splitOnP isWS := by
            conv_lhs => rw [show c :: cs = (c :: cs.takeWhile (fun d => !isWS d)) ++ w :: d' by
              rw [List.cons_append, ← hdecomp]]
            exact List.splitOnP_first _ _ htkchars w hw d'
          have hlen : d'.length < n := by
            have := congrArg List.length hdecomp
            simp at this hn
            omega
          have hspec : spec_tokens (c :: cs) =
              (c :: cs.takeWhile (fun d => !isWS d)) :: spec_tokens d' := by
            unfold spec_tokens
            rw [hfirst]
            simp
          rw [hspec, pySplit_cons_ws d' hw]
          rw [ih d'.length hlen d' rfl]

/-- Implementation filter equals the specification-side filter. -/
theorem remove_fillers_eq_spec_filter (W : List Str) (T : Str) :
    remove_fillers W T = spec_filter W T := by
  rw [remove_fillers, spec_filter, pySplit_eq_spec_tokens]

/-! ### Data model: speech events -/

/-- Embedding of `livekit.agents.stt.SpeechEventType` (the variants used by
the plugin plus the remaining non-transcript variants). -/
inductive SpeechEventType where
  | startOfSpeech
  | interimTranscript
  | finalTranscript
  | endOfSpeech
  | recognitionUsage
deriving DecidableEq

/-- Embedding of `livekit.agents.stt.SpeechData` (one alternative).  The
numeric metadata fields are only ever copied by the plugin, never computed
with, so they are modelled as integers. -/
structure SpeechData where
  language : Str
  text : Str
  start_time : Int
  end_time : Int
  confidence : Int
deriving DecidableEq

/-- Embedding of `livekit.agents.stt.SpeechEvent`. -/
structure SpeechEvent where
  type : SpeechEventType
  alternatives : List SpeechData
deriving DecidableEq

/-- The condition `event.type == INTERIM_TRANSCRIPT or event.type ==
FINAL_TRANSCRIPT` from `FilteredRecognizeStream.__anext__`. -/
def is_transcript (t : SpeechEventType) : Bool :=
  t == SpeechEventType.interimTranscript || t == SpeechEventType.finalTranscript

/-- Embedding of the body of `FilteredRecognizeStream.__anext__` for one
underlying event: `some e'` means the adapter returns `e'` to the caller,
`none` means the event is suppressed (the code recurses to fetch the next
underlying event). -/
def stream_step (fillerWords : List Str) (event : SpeechEvent) : Option SpeechEvent :=
  if is_transcript event.type then
    match event.alternatives with
    | [] => some event
    | alt :: _ =>
      let cleaned := remove_fillers fillerWords alt.text
      if (pyStrip cleaned).isEmpty then none
      else
        some { type := event.type
               alternatives := [{ language := alt.language
                                  text := cleaned
                                  start_time := alt.start_time
                                  end_time := alt.end_time
                                  confidence := alt.confidence }] }
  else some event

/-- The whole output sequence of the streaming adapter over a finite
underlying event sequence: repeated `__anext__`, where suppression
transparently moves on to the next underlying event. -/
def filtered_stream (fillerWords : List Str) : List SpeechEvent → List SpeechEvent
  | [] => []
  | e :: rest =>
    match stream_step fillerWords e with
    | some e' => e' :: filtered_stream fillerWords rest
    | none => filtered_stream fillerWords rest

/-- Embedding of `FillerRemoverSTT._recognize_impl` applied to the event the
underlying engine's `recognize` returned. -/
def recognize_impl (fillerWords : List Str) (event : SpeechEvent) : SpeechEvent :=
  match event.alternatives with
  | [] => event
  | alt :: _ =>
    let cleaned := remove_fillers fillerWords alt.text
    { type := event.type
      alternatives := [{ language := alt.language
                         text := cleaned
                         start_time := alt.start_time
                         end_time := alt.end_time
                         confidence := alt.confidence }] }

/-- An INTERIM/FINAL transcript event with at least one alternative whose
filtered first-alternative text is empty after trimming: exactly the events
the streaming adapter suppresses. -/
def filler_only (fillerWords : List Str) (event : SpeechEvent) : Bool :=
  is_transcript event.type &&
    match event.alternatives with
    | [] => false
    | alt :: _ => (pyStrip (remove_fillers fillerWords alt.text)).isEmpty

/-- The event the adapter forwards for a surviving underlying event. -/
def forward_of (fillerWords : List Str) (event : SpeechEvent) : SpeechEvent :=
  (stream_step fillerWords event).getD event

/-! ### Data model: the underlying stream and the lifecycle proxies

Modelled from the spec: the underlying `EventSequence` (§6) is an external
collaborator, not part of this repository's sources.  Its observable state is
the queue of events it will still produce, a closed flag, a log of pushed
frames, a flush counter, and flags saying which optional operations the
object supports (Python `hasattr`).  Per §6/§7 its `close` is idempotent and
a `get next event` call on a closed sequence fails with an explicit
"stream closed" condition. -/
structure UnderlyingStream where
  pending : List SpeechEvent
  closed : Bool
  frames : List Nat
  flushes : Nat
  supports_push_frame : Bool
  supports_flush : Bool
  supports_aclose : Bool
deriving DecidableEq

/-- Result of a `__anext__` call, distinguishing a yielded event, normal end
of iteration (`StopAsyncIteration`), and the explicit use-after-close
failure. -/
inductive NextResult where
  | event (e : SpeechEvent) (rest : UnderlyingStream)
  | stopIteration
  | closedError
deriving DecidableEq

/-- Result of a proxied call that Python may abort with `AttributeError`
when the underlying object lacks the attribute. -/
inductive Proxied (α : Type) where
  | ok (a : α)
  | attributeError
deriving DecidableEq

/-- Modelled from the spec: `__anext__` of the underlying sequence — fails
explicitly once closed, otherwise yields the next pending event or signals
end of sequence. -/
def under_next (s : UnderlyingStream) : NextResult :=
  if s.closed then NextResult.closedError
  else
    match s.pending with
    | [] => NextResult.stopIteration
    | e :: rest => NextResult.event e { s with pending := rest }

/-- Modelled from the spec: `push_frame` of the underlying sequence records
the frame. -/
def under_push_frame (s : UnderlyingStream) (frame : Nat) : UnderlyingStream :=
  { s with frames := s.frames ++ [frame] }

/-- Modelled from the spec: `flush` of the underlying sequence. -/
def under_flush (s : UnderlyingStream) : UnderlyingStream :=
  { s with flushes := s.flushes + 1 }

/-- Modelled from the spec: `aclose` of the underlying sequence (idempotent
per §6). -/
def under_aclose (s : UnderlyingStream) : UnderlyingStream :=
  { s with closed := true }

/-- Embedding of `FilteredRecognizeStream.push_frame`: forwards to the
underlying stream unconditionally (no `hasattr` guard in the source); on an
underlying object without `push_frame`, Python's attribute lookup raises
`AttributeError`. -/
def adapter_push_frame (s : UnderlyingStream) (frame : Nat) : Proxied UnderlyingStream :=
  if s.supports_push_frame then Proxied.ok (under_push_frame s frame)
  else Proxied.attributeError

/-- Embedding of `FilteredRecognizeStream.flush`: guarded by
`hasattr(self._underlying_stream, "flush")`, a no-op otherwise. -/
def adapter_flush (s : UnderlyingStream) : Proxied UnderlyingStream :=
  if s.supports_flush then Proxied.ok (under_flush s) else Proxied.ok s

/-- Embedding of `FilteredRecognizeStream.aclose`: guarded by
`hasattr(self._underlying_stream, "aclose")`, a no-op otherwise. -/
def adapter_aclose (s : UnderlyingStream) : UnderlyingStream :=
  if s.supports_aclose then under_aclose s else s

theorem under_next_pending {s s' : UnderlyingStream} {e : SpeechEvent}
    (h : under_next s = NextResult.event e s') : s'.pending.length < s.pending.length := by
  unfold under_next at h
  by_cases hc : s.closed = true
  · rw [if_pos hc] at h
    cases h
  · rw [if_neg hc] at h
    cases hp : s.pending with
    | nil => rw [hp] at h; cases h
    | cons x rest =>
      rw [hp] at h
      cases h
      simp [hp]

/-- Embedding of `FilteredRecognizeStream.__anext__` as a state transformer:
pulls from the underlying stream, suppressing filler-only transcript events
by recursing, exactly as the source recurses via `await self.__anext__()`. -/
def adapter_anext (fillerWords : List Str) (s : UnderlyingStream) : NextResult :=
  match h : under_next s with
  | NextResult.closedError => NextResult.closedError
  | NextResult.stopIteration => NextResult.stopIteration
  | NextResult.event e s' =>
    match stream_step fillerWords e with
    | some e' => NextResult.event e' s'
    | none => adapter_anext fillerWords s'
termination_by s.pending.length
decreasing_by exact under_next_pending h

theorem adapter_anext_closed (W : List Str) (s : UnderlyingStream) (h : s.closed = true) :
    adapter_anext W s = NextResult.closedError := by
  have hu : under_next s = NextResult.closedError := by simp [under_next, h]
  unfold adapter_anext
  split <;> simp_all

theorem adapter_anext_stop (W : List Str) (s : UnderlyingStream) (hc : s.closed = false)
    (hp : s.pending = []) : adapter_anext W s = NextResult.stopIteration := by
  have hu : under_next s = NextResult.stopIteration := by simp [under_next, hc, hp]
  unfold adapter_anext
  split <;> simp_all

theorem adapter_anext_some (W : List Str) (s : UnderlyingStream) (e : SpeechEvent)
    (rest : List SpeechEvent) (e' : SpeechEvent) (hc : s.closed = false)
    (hp : s.pending = e :: rest) (hs : stream_step W e = some e') :
    adapter_anext W s = NextResult.event e' { s with pending := rest } := by
  have hu : under_next s = NextResult.event e { s with pending := rest } := by
    simp [under_next, hc, hp]
  unfold adapter_anext
  split <;> simp_all

theorem adapter_anext_skip (W : List Str) (s : UnderlyingStream) (e : SpeechEvent)
    (rest : List SpeechEvent) (hc : s.closed = false)
    (hp : s.pending = e :: rest) (hs : stream_step W e = none) :
    adapter_anext W s = adapter_anext W { s with pending := rest } := by
  have hu : under_next s = NextResult.event e { s with pending := rest } := by
    simp [under_next, hc, hp]
  conv_lhs => rw [adapter_anext.eq_def]
  split
  · rename_i heq
    rw [hu] at heq
    simp at heq
  · rename_i heq
    rw [hu] at heq
    simp at heq
  · rename_i e₁ s₁ heq
    rw [hu] at heq
    injection heq with h1 h2
    subst h1
    subst h2
    rw [hs]

theorem adapter_anext_pending_aux (W : List Str) : ∀ (n : Nat) (s : UnderlyingStream),
    s.pending.length ≤ n → ∀ {e : SpeechEvent} {s' : UnderlyingStream},
    adapter_anext W s = NextResult.event e s' → s'.pending.length < s.pending.length := by
  intro n
  induction n with
  | zero =>
    intro s hl e s' h
    have hp : s.pending = [] := by
      cases hq : s.pending with
      | nil => rfl
      | cons x xs => rw [hq] at hl; simp at hl
    by_cases hc : s.closed = true
    · rw [adapter_anext_closed W s hc] at h
      cases h
    · rw [adapter_anext_stop W s (by simpa using hc) hp] at h
      cases h
  | succ n ih =>
    intro s hl e s' h
    by_cases hc : s.closed = true
    · rw [adapter_anext_closed W s hc] at h
      cases h
    · have hc' : s.closed = false := by simpa using hc
      cases hp : s.pending with
      | nil =>
        rw [adapter_anext_stop W s hc' hp] at h
        cases h
      | cons e₀ rest =>
        cases hs : stream_step W e₀ with
        | some e₁ =>
          rw [adapter_anext_some W s e₀ rest e₁ hc' hp hs] at h
          injection h with h1 h2
          rw [← h2]
          simp
        | none =>
          rw [adapter_anext_skip W s e₀ rest hc' hp hs] at h
          have hlen : ({ s with pending := rest } : UnderlyingStream).pending.length ≤ n := by
            rw [hp] at hl
            simp at hl ⊢
            omega
          have := ih { s with pending := rest } hlen h
          simp at this
          simp only [List.length_cons]
          omega

theorem adapter_anext_pending {W : List Str} {s : UnderlyingStream} {e : SpeechEvent}
    {s' : UnderlyingStream} (h : adapter_anext W s = NextResult.event e s') :
    s'.pending.length < s.pending.length :=
  adapter_anext_pending_aux W s.pending.length s (Nat.le_refl _) h

/-- The full output sequence obtained by calling `__anext__` on the adapter
until the stream ends or fails. -/
def adapter_run (W : List Str) (s : UnderlyingStream) : List SpeechEvent :=
  match h : adapter_anext W s with
  | NextResult.event e s' => e :: adapter_run W s'
  | NextResult.stopIteration => []
  | NextResult.closedError => []
termination_by s.pending.length
decreasing_by exact adapter_anext_pending h

theorem adapter_run_event (W : List Str) (s : UnderlyingStream) (e : SpeechEvent)
    (s' : UnderlyingStream) (h : adapter_anext W s = NextResult.event e s') :
    adapter_run W s = e :: adapter_run W s' := by
  conv_lhs => rw [adapter_run.eq_def]
  split
  · rename_i e₁ s₁ heq
    rw [h] at heq
    injection heq with h1 h2
    subst h1
    subst h2
    rfl
  · rename_i heq
    rw [h] at heq
    simp at heq
  · rename_i heq
    rw [h] at heq
    simp at heq

theorem adapter_run_stop (W : List Str) (s : UnderlyingStream)
    (h : adapter_anext W s = NextResult.stopIteration) : adapter_run W s = [] := by
  unfold adapter_run
  split <;> simp_all

theorem adapter_run_closed_result (W : List Str) (s : UnderlyingStream)
    (h : adapter_anext W s = NextResult.closedError) : adapter_run W s = [] := by
  unfold adapter_run
  split <;> simp_all

theorem adapter_run_eq_filtered_aux (W : List Str) : ∀ (n : Nat) (s : UnderlyingStream),
    s.pending.length ≤ n → s.closed = false →
    adapter_run W s = filtered_stream W s.pending := by
  intro n
  induction n with
  | zero =>
    intro s hl hc
    have hp : s.pending = [] := by
      cases hq : s.pending with
      | nil => rfl
      | cons x xs => rw [hq] at hl; simp at hl
    rw [adapter_run_stop W s (adapter_anext_stop W s hc hp), hp]
    rfl
  | succ n ih =>
    intro s hl hc
    cases hp : s.pending with
    | nil =>
      rw [adapter_run_stop W s (adapter_anext_stop W s hc hp)]
      rfl
    | cons e₀ rest =>
      have hlen : ({ s with pending := rest } : UnderlyingStream).pending.length ≤ n := by
        rw [hp] at hl
        simp at hl ⊢
        omega
      cases hs : stream_step W e₀ with
      | some e₁ =>
        rw [adapter_run_event W s e₁ { s with pending := rest }
          (adapter_anext_some W s e₀ rest e₁ hc hp hs)]
        rw [ih { s with pending := rest } hlen (by simp [hc])]
        simp [filtered_stream, hs]
      | none =>
        have hskip := adapter_anext_skip W s e₀ rest hc hp hs
        have hrun : adapter_run W s = adapter_run W { s with pending := rest } := by
          cases h2 : adapter_anext W { s with pending := rest } with
          | event e₂ s₂ =>
            rw [adapter_run_event W s e₂ s₂ (by rw [hskip, h2]),
              adapter_run_event W { s with pending := rest } e₂ s₂ h2]
          | stopIteration =>
            rw [adapter_run_stop W s (by rw [hskip, h2]),
              adapter_run_stop W { s with pending := rest } h2]
          | closedError =>
            rw [adapter_run_closed_result W s (by rw [hskip, h2]),
              adapter_run_closed_result W { s with pending := rest } h2]
        rw [hrun, ih { s with pending := rest } hlen (by simp [hc])]
        simp [filtered_stream, hs]

/-- On an open stream, the iterated adapter produces exactly the filtered
event sequence of the pending underlying events. -/
theorem adapter_run_eq_filtered (W : List Str) (s : UnderlyingStream)
    (hc : s.closed = false) : adapter_run W s = filtered_stream W s.pending :=
  adapter_run_eq_filtered_aux W s.pending.length s (Nat.le_refl _) hc

/-! ### Behavioural lemmas about the adapters -/

/-- The streaming adapter suppresses an event exactly when it is a
filler-only transcript event. -/
theorem stream_step_eq_none_iff (W : List Str) (e : SpeechEvent) :
    stream_step W e = none ↔ filler_only W e = true := by
  unfold stream_step filler_only
  split
  · rename_i h
    cases halts : e.alternatives with
    | nil => simp [h]
    | cons alt rest =>
      simp only [h, Bool.true_and]
      by_cases hstrip : (pyStrip (remove_fillers W alt.text)).isEmpty = true
      · simp [hstrip]
      · simp [hstrip]
  · rename_i h
    rw [Bool.not_eq_true] at h
    simp [h]

/-- A surviving event is forwarded as `forward_of`. -/
theorem stream_step_some_of_not_filler (W : List Str) (e : SpeechEvent)
    (h : filler_only W e = false) : stream_step W e = some (forward_of W e) := by
  cases hs : stream_step W e with
  | none =>
    rw [stream_step_eq_none_iff] at hs
    rw [hs] at h
    cases h
  | some e' => simp [forward_of, hs]

/-- The streaming output is the map of `forward_of` over the non-suppressed
underlying events; in particular suppression never reorders. -/
theorem filtered_stream_eq (W : List Str) : ∀ evs : List SpeechEvent,
    filtered_stream W evs = (evs.filter (fun e => !(filler_only W e))).map (forward_of W) := by
  intro evs
  induction evs with
  | nil => rfl
  | cons e rest ih =>
    by_cases hf : filler_only W e = true
    · have hn : stream_step W e = none := (stream_step_eq_none_iff W e).mpr hf
      simp [filtered_stream, hn, List.filter_cons, hf, ih]
    · have hb : filler_only W e = false := by simpa using hf
      have hs := stream_step_some_of_not_filler W e hb
      simp [filtered_stream, hs, List.filter_cons, hb, ih]

theorem length_filter_not_countP {α : Type} (p : α → Bool) (l : List α) :
    (l.filter (fun a => !p a)).length = l.length - l.countP p := by
  induction l with
  | nil => rfl
  | cons a l ih =>
    have hle : l.countP p ≤ l.length := List.countP_le_length p
    by_cases h : p a = true
    · rw [List.filter_cons_of_neg (by simp [h]), List.countP_cons_of_pos _ _ (by simp [h]),
        List.length_cons, ih]
      omega
    · rw [List.filter_cons_of_pos (by simp [h]), List.countP_cons_of_neg _ _ (by simp [h]),
        List.length_cons, List.length_cons, ih]
      omega

/-! ### Concrete fixtures (the spec's §8 scenarios) -/

/-- The word list `["uh", "umm"]` of the spec's scenarios, lower-cased at
construction time as in `FillerRemoverSTT.__init__`. -/
def wUhUmm : List Str := ["uh".toList, "umm".toList]

/-- A sample alternative carrying the given text. -/
def sampleAlt (t : Str) : SpeechData :=
  { language := "en".toList, text := t, start_time := 0, end_time := 1, confidence := 1 }

/-- The underlying event sequence of the spec's streaming scenario 5. -/
def sampleEvents : List SpeechEvent :=
  [ { type := SpeechEventType.interimTranscript, alternatives := [sampleAlt "uh hello".toList] }
  , { type := SpeechEventType.finalTranscript, alternatives := [sampleAlt "uh hello world".toList] }
  , { type := SpeechEventType.interimTranscript, alternatives := [sampleAlt "umm".toList] }
  , { type := SpeechEventType.finalTranscript, alternatives := [sampleAlt "umm".toList] } ]

/-- An open underlying stream holding the scenario-5 events, supporting all
lifecycle operations. -/
def sampleStream : UnderlyingStream :=
  { pending := sampleEvents, closed := false, frames := [], flushes := 0
    supports_push_frame := true, supports_flush := true, supports_aclose := true }

/-- An underlying stream that does not support `push_frame`. -/
def noPushStream : UnderlyingStream :=
  { pending := [], closed := false, frames := [], flushes := 0
    supports_push_frame := false, supports_flush := true, supports_aclose := true }

/-- An underlying stream that does not support `flush`. -/
def noFlushStream : UnderlyingStream :=
  { pending := [], closed := false, frames := [], flushes := 0
    supports_push_frame := true, supports_flush := false, supports_aclose := true }

/-- An underlying stream that does not support `aclose`. -/
def noAcloseStream : UnderlyingStream :=
  { pending := [], closed := false, frames := [], flushes := 0
    supports_push_frame := true, supports_flush := true, supports_aclose := false }

example : remove_fillers [['u','h']] "uh hello".toList = "hello".toList := by decide

example : remove_fillers ["umm".toList] "umm okay stop".toList = "okay stop".toList := by decide

example : remove_fillers [['u','h']] "uh uh uh".toList = [] := by decide

example : remove_fillers [['u','h']] "  uh  hello  ".toList = "hello".toList := by decide

example :
    filtered_stream wUhUmm sampleEvents =
      [ { type := SpeechEventType.interimTranscript, alternatives := [sampleAlt "hello".toList] }
      , { type := SpeechEventType.finalTranscript,
          alternatives := [sampleAlt "hello world".toList] } ] := by decide

example :
    recognize_impl [['u','h']]
        { type := SpeechEventType.finalTranscript, alternatives := [sampleAlt "uh".toList] } =
      { type := SpeechEventType.finalTranscript, alternatives := [sampleAlt []] } := by
  decide

/-! ### The claims -/

/-- C1: for every text `T` and word list `W`, the filter returns exactly the
whitespace-delimited tokens of `T` whose lower-cased form is not a member of
`W`, kept in their original relative order and joined by single spaces
(formalized as agreement with the specification-side `spec_filter`); in
particular it returns the empty string when `T` is empty or consists only of
filler tokens.  Totality and determinism over all string inputs hold because
`remove_fillers` is a total Lean function. -/
theorem c1_filter_matches_spec (W : List Str) (T : Str) :
    remove_fillers W T = spec_filter W T ∧
    remove_fillers W [] = [] ∧
    ((∀ t ∈ spec_tokens T, W.contains (lowerStr t) = true) → remove_fillers W T = []) := by
  refine ⟨remove_fillers_eq_spec_filter W T, rfl, ?_⟩
  intro h
  rw [remove_fillers, pySplit_eq_spec_tokens]
  have hnil : (spec_tokens T).filter (fun t => !(W.contains (lowerStr t))) = [] := by
    rw [List.filter_eq_nil_iff]
    intro a ha
    simpa using h a ha
  rw [hnil]
  rfl

theorem c1_witness :
    (∀ t ∈ spec_tokens "uh UMM".toList, wUhUmm.contains (lowerStr t) = true) ∧
    remove_fillers wUhUmm "uh UMM".toList = [] :=
  ⟨by decide, (c1_filter_matches_spec wUhUmm "uh UMM".toList).2.2 (by decide)⟩

/-- C7: the filter function is idempotent — filtering an already-filtered
text changes nothing, for every text and word list. -/
theorem c7_filter_idempotent (W : List Str) (T : Str) :
    remove_fillers W (remove_fillers W T) = remove_fillers W T := by
  show joinSp ((pySplit (remove_fillers W T)).filter
      (fun word => !(W.contains (lowerStr word)))) = remove_fillers W T
  rw [show remove_fillers W T =
      joinSp ((pySplit T).filter (fun word => !(W.contains (lowerStr word)))) from rfl]
  rw [pySplit_joinSp _ (remove_fillers_tokens_wf W T)]
  rw [List.filter_eq_self.mpr (fun a ha => (List.mem_filter.mp ha).2)]

/-- C4: a transcript event (and any event) carrying zero alternatives is
forwarded unchanged by the stream adapter and returned unchanged by the batch
adapter; neither indexes into the empty alternative set and neither treats it
as an error. -/
theorem c4_no_alternatives_forwarded_unchanged (W : List Str) (e : SpeechEvent)
    (h : e.alternatives = []) :
    stream_step W e = some e ∧ recognize_impl W e = e := by
  constructor
  · unfold stream_step
    split
    · simp [h]
    · rfl
  · unfold recognize_impl
    simp [h]

theorem c4_witness :
    stream_step wUhUmm { type := SpeechEventType.interimTranscript, alternatives := [] } =
      some { type := SpeechEventType.interimTranscript, alternatives := [] } ∧
    recognize_impl wUhUmm { type := SpeechEventType.interimTranscript, alternatives := [] } =
      { type := SpeechEventType.interimTranscript, alternatives := [] } :=
  c4_no_alternatives_forwarded_unchanged wUhUmm
    { type := SpeechEventType.interimTranscript, alternatives := [] } rfl

/-- C3: the batch adapter always returns exactly one event (it is a total
function into events, with no suppression or skip-to-next); when the filtered
text of the first alternative is empty, that one event carries the empty
string as its text. -/
theorem c3_batch_no_suppression (W : List Str) (e : SpeechEvent) (alt : SpeechData)
    (rest : List SpeechData) (halts : e.alternatives = alt :: rest)
    (hempty : remove_fillers W alt.text = []) :
    recognize_impl W e =
      { type := e.type
        alternatives := [{ language := alt.language, text := []
                           start_time := alt.start_time, end_time := alt.end_time
                           confidence := alt.confidence }] } := by
  unfold recognize_impl
  simp [halts, hempty]

theorem c3_witness :
    recognize_impl wUhUmm
        { type := SpeechEventType.finalTranscript, alternatives := [sampleAlt "uh".toList] } =
      { type := SpeechEventType.finalTranscript
        alternatives := [{ language := "en".toList, text := []
                           start_time := 0, end_time := 1, confidence := 1 }] } :=
  c3_batch_no_suppression wUhUmm
    { type := SpeechEventType.finalTranscript, alternatives := [sampleAlt "uh".toList] }
    (sampleAlt "uh".toList) [] rfl (by decide)

/-- C2: for every finite underlying event sequence, the streaming adapter's
output is exactly the non-filler-only events, rewritten by `forward_of`, in
their original relative order; its length is `N − M` where `M` counts the
filler-only transcript events; non-transcript events are always forwarded
unchanged; and iterating the stateful adapter (`adapter_run`, repeated
`__anext__`, which transparently fetches the next underlying event on
suppression) yields this same sequence. -/
theorem c2_streaming_suppression_and_ordering (W : List Str) (evs : List SpeechEvent)
    (s : UnderlyingStream) :
    filtered_stream W evs = (evs.filter (fun e => !(filler_only W e))).map (forward_of W) ∧
    (filtered_stream W evs).length = evs.length - evs.countP (filler_only W) ∧
    (∀ e ∈ evs, is_transcript e.type = false →
      stream_step W e = some e ∧ filler_only W e = false) ∧
    (s.closed = false → adapter_run W s = filtered_stream W s.pending) := by
  refine ⟨filtered_stream_eq W evs, ?_, ?_, ?_⟩
  · rw [filtered_stream_eq W evs, List.length_map, length_filter_not_countP]
  · intro e _ ht
    constructor
    · unfold stream_step
      rw [if_neg (by simp [ht])]
    · unfold filler_only
      rw [ht]
      rfl
  · intro hc
    exact adapter_run_eq_filtered W s hc

theorem c2_witness :
    adapter_run wUhUmm sampleStream = filtered_stream wUhUmm sampleStream.pending ∧
    (filtered_stream wUhUmm sampleEvents).length =
      sampleEvents.length - sampleEvents.countP (filler_only wUhUmm) ∧
    (filtered_stream wUhUmm sampleEvents).length = 2 ∧ sampleEvents.length = 4 :=
  ⟨(c2_streaming_suppression_and_ordering wUhUmm sampleEvents sampleStream).2.2.2 rfl,
   (c2_streaming_suppression_and_ordering wUhUmm sampleEvents sampleStream).2.1,
   by decide, by decide⟩

/-- C5: the adapter's `aclose` is idempotent, and once the underlying stream
(which per §6 supports `aclose`) has been closed through it, every further
`__anext__` call on the adapter fails with the explicit stream-closed
condition instead of yielding stale or synthetic events. -/
theorem c5_close_idempotent_and_fails_after (W : List Str) (s : UnderlyingStream) :
    adapter_aclose (adapter_aclose s) = adapter_aclose s ∧
    (s.supports_aclose = true →
      adapter_anext W (adapter_aclose s) = NextResult.closedError) := by
  constructor
  · unfold adapter_aclose under_aclose
    by_cases h : s.supports_aclose = true <;> simp [h]
  · intro h
    apply adapter_anext_closed
    simp [adapter_aclose, under_aclose, h]

theorem c5_witness :
    adapter_aclose (adapter_aclose sampleStream) = adapter_aclose sampleStream ∧
    adapter_anext wUhUmm (adapter_aclose sampleStream) = NextResult.closedError :=
  ⟨(c5_close_idempotent_and_fails_after wUhUmm sampleStream).1,
   (c5_close_idempotent_and_fails_after wUhUmm sampleStream).2 rfl⟩

/-- C6 counterexample: on an underlying stream without `push_frame`, the
adapter's `push_frame` — forwarded without any support check in the source —
raises `AttributeError` rather than acting as a no-op, refuting the claim
that every unsupported lifecycle proxy operation is a non-raising no-op. -/
theorem c6_counterexample :
    adapter_push_frame noPushStream 7 = Proxied.attributeError ∧
    adapter_push_frame noPushStream 7 ≠ Proxied.ok noPushStream := by
  constructor
  · rfl
  · decide

/-- C6 (amended): `flush` and `aclose` are forwarded unchanged when the
underlying stream supports them and are non-raising no-ops otherwise, but
`push_frame` is forwarded unconditionally: it raises `AttributeError`
whenever the underlying stream does not support it. -/
theorem c6_lifecycle_proxies (s : UnderlyingStream) (frame : Nat) :
    (s.supports_push_frame = true →
      adapter_push_frame s frame = Proxied.ok (under_push_frame s frame)) ∧
    (s.supports_push_frame = false →
      adapter_push_frame s frame = Proxied.attributeError) ∧
    (s.supports_flush = true → adapter_flush s = Proxied.ok (under_flush s)) ∧
    (s.supports_flush = false → adapter_flush s = Proxied.ok s) ∧
    (s.supports_aclose = true → adapter_aclose s = under_aclose s) ∧
    (s.supports_aclose = false → adapter_aclose s = s) := by
  refine ⟨?_, ?_, ?_, ?_, ?_, ?_⟩ <;>
    intro h <;>
    simp [adapter_push_frame, adapter_flush, adapter_aclose, h]

theorem c6_witness :
    adapter_push_frame sampleStream 3 = Proxied.ok (under_push_frame sampleStream 3) ∧
    adapter_push_frame noPushStream 3 = Proxied.attributeError ∧
    adapter_flush sampleStream = Proxied.ok (under_flush sampleStream) ∧
    adapter_flush noFlushStream = Proxied.ok noFlushStream ∧
    adapter_aclose sampleStream = under_aclose sampleStream ∧
    adapter_aclose noAcloseStream = noAcloseStream :=
  ⟨(c6_lifecycle_proxies sampleStream 3).1 rfl,
   (c6_lifecycle_proxies noPushStream 3).2.1 rfl,
   (c6_lifecycle_proxies sampleStream 3).2.2.1 rfl,
   (c6_lifecycle_proxies noFlushStream 3).2.2.2.1 rfl,
   (c6_lifecycle_proxies sampleStream 3).2.2.2.2.1 rfl,
   (c6_lifecycle_proxies noAcloseStream 3).2.2.2.2.2 rfl⟩

/-- C8: whenever an INTERIM/FINAL event with at least one alternative is
forwarded as a rewritten event — by the stream adapter or by the batch
adapter — only the first alternative's text changes: its language,
start_time, end_time and confidence are copied unchanged from the original
first alternative, and the event kind is preserved. -/
theorem c8_metadata_preserved (W : List Str) (e : SpeechEvent) (alt : SpeechData)
    (rest : List SpeechData) (halts : e.alternatives = alt :: rest) :
    (∀ e', is_transcript e.type = true → stream_step W e = some e' →
      e'.type = e.type ∧
      e'.alternatives = [{ language := alt.language, text := remove_fillers W alt.text
                           start_time := alt.start_time, end_time := alt.end_time
                           confidence := alt.confidence }]) ∧
    ((recognize_impl W e).type = e.type ∧
      (recognize_impl W e).alternatives =
        [{ language := alt.language, text := remove_fillers W alt.text
           start_time := alt.start_time, end_time := alt.end_time
           confidence := alt.confidence }]) := by
  constructor
  · intro e' ht hs
    by_cases hstrip : (pyStrip (remove_fillers W alt.text)).isEmpty = true
    · exfalso
      have hnone : stream_step W e = none := by
        unfold stream_step
        simp [ht, halts, hstrip]
      rw [hnone] at hs
      cases hs
    · have hb : (pyStrip (remove_fillers W alt.text)).isEmpty = false := by simpa using hstrip
      have hsome : stream_step W e =
          some { type := e.type
                 alternatives := [{ language := alt.language
                                    text := remove_fillers W alt.text
                                    start_time := alt.start_time, end_time := alt.end_time
                                    confidence := alt.confidence }] } := by
        unfold stream_step
        simp [ht, halts, hb]
      rw [hsome] at hs
      injection hs with h1
      rw [← h1]
      exact ⟨rfl, rfl⟩
  · constructor <;> simp [recognize_impl, halts]

/-- The C8 witness event: an interim transcript with two alternatives whose
first text contains a filler. -/
def eC8 : SpeechEvent :=
  { type := SpeechEventType.interimTranscript
    alternatives := [sampleAlt "uh hello".toList, sampleAlt "bye".toList] }

/-- The event the stream adapter forwards for `eC8`. -/
def eC8out : SpeechEvent :=
  { type := SpeechEventType.interimTranscript
    alternatives := [{ language := "en".toList, text := "hello".toList
                       start_time := 0, end_time := 1, confidence := 1 }] }

theorem c8_witness :
    (eC8out.type = eC8.type ∧
      eC8out.alternatives = [{ language := "en".toList
                               text := remove_fillers wUhUmm "uh hello".toList
                               start_time := 0, end_time := 1, confidence := 1 }]) ∧
    ((recognize_impl wUhUmm eC8).type = eC8.type ∧
      (recognize_impl wUhUmm eC8).alternatives =
        [{ language := "en".toList
           text := remove_fillers wUhUmm "uh hello".toList
           start_time := 0, end_time := 1, confidence := 1 }]) :=
  ⟨(c8_metadata_preserved wUhUmm eC8 (sampleAlt "uh hello".toList)
      [sampleAlt "bye".toList] rfl).1 eC8out rfl (by decide),
   (c8_metadata_preserved wUhUmm eC8 (sampleAlt "uh hello".toList)
      [sampleAlt "bye".toList] rfl).2⟩

/-- C9: for every INTERIM/FINAL event with at least one alternative, the
event forwarded by the stream adapter and the event returned by the batch
adapter carry exactly one alternative — the rewrite is unconditional whenever
alternatives are present (even when the filtered text equals the original),
so alternatives after the first are dropped. -/
theorem c9_single_alternative (W : List Str) (e : SpeechEvent)
    (halts : e.alternatives ≠ []) (htype : is_transcript e.type = true) :
    (∀ e', stream_step W e = some e' → e'.alternatives.length = 1) ∧
    (recognize_impl W e).alternatives.length = 1 := by
  obtain ⟨alt, rest, hale⟩ := List.exists_cons_of_ne_nil halts
  constructor
  · intro e' hs
    by_cases hstrip : (pyStrip (remove_fillers W alt.text)).isEmpty = true
    · exfalso
      have hnone : stream_step W e = none := by
        unfold stream_step
        simp [htype, hale, hstrip]
      rw [hnone] at hs
      cases hs
    · have hb : (pyStrip (remove_fillers W alt.text)).isEmpty = false := by simpa using hstrip
      have hsome : stream_step W e =
          some { type := e.type
                 alternatives := [{ language := alt.language
                                    text := remove_fillers W alt.text
                                    start_time := alt.start_time, end_time := alt.end_time
                                    confidence := alt.confidence }] } := by
        unfold stream_step
        simp [htype, hale, hb]
      rw [hsome] at hs
      injection hs with h1
      rw [← h1]
      rfl
  · unfold recognize_impl
    simp [hale]

/-- The C9 witness event: a final transcript with two alternatives whose
first text contains no filler word at all, showing the rewrite (and the drop
of the second alternative) happens even when the text is unchanged. -/
def eC9 : SpeechEvent :=
  { type := SpeechEventType.finalTranscript
    alternatives := [sampleAlt "hello".toList, sampleAlt "bye".toList] }

/-- The event the stream adapter forwards for `eC9`. -/
def eC9out : SpeechEvent :=
  { type := SpeechEventType.finalTranscript
    alternatives := [{ language := "en".toList, text := "hello".toList
                       start_time := 0, end_time := 1, confidence := 1 }] }

theorem c9_witness :
    eC9out.alternatives.length = 1 ∧
    (recognize_impl wUhUmm eC9).alternatives.length = 1 ∧
    stream_step wUhUmm eC9 = some eC9out ∧
    eC9.alternatives.length = 2 ∧
    remove_fillers wUhUmm "hello".toList = "hello".toList :=
  ⟨(c9_single_alternative wUhUmm eC9 (by decide) rfl).1 eC9out (by decide),
   (c9_single_alternative wUhUmm eC9 (by decide) rfl).2,
   by decide, by decide, by decide⟩

/-- C10: the text a forwarded INTERIM/FINAL event carries is the
whitespace-normalized form of the original (leading/trailing whitespace
removed, internal whitespace runs collapsed to single spaces) even when the
original contains no configured filler word, so the adapter can alter the
text of an event from which nothing was filtered. -/
theorem c10_normalizes_even_without_fillers (W : List Str) (e : SpeechEvent)
    (alt : SpeechData) (rest : List SpeechData) (halts : e.alternatives = alt :: rest)
    (htype : is_transcript e.type = true)
    (hnof : ∀ t ∈ pySplit alt.text, W.contains (lowerStr t) = false)
    (hne : normalize_ws alt.text ≠ []) :
    remove_fillers W alt.text = normalize_ws alt.text ∧
    stream_step W e =
      some { type := e.type
             alternatives := [{ language := alt.language, text := normalize_ws alt.text
                                start_time := alt.start_time, end_time := alt.end_time
                                confidence := alt.confidence }] } := by
  have hrf : remove_fillers W alt.text = normalize_ws alt.text := by
    rw [remove_fillers, normalize_ws, pySplit_eq_spec_tokens]
    congr 1
    apply List.filter_eq_self.mpr
    intro a ha
    rw [← pySplit_eq_spec_tokens] at ha
    have h2 := hnof a ha
    simp at h2 ⊢
    exact h2
  have h1 : pyStrip (remove_fillers W alt.text) ≠ [] := by
    intro hx
    have h2 : remove_fillers W alt.text = [] :=
      (pyStrip_remove_fillers_eq_nil_iff W alt.text).mp hx
    rw [hrf] at h2
    exact hne h2
  have hstrip : (pyStrip (remove_fillers W alt.text)).isEmpty = false := by
    rw [Bool.eq_false_iff]
    intro hx
    exact h1 (List.isEmpty_iff.mp hx)
  have h1' : ¬ pyStrip (normalize_ws alt.text) = [] := by
    rw [← hrf]
    exact h1
  refine ⟨hrf, ?_⟩
  unfold stream_step
  simp [htype, halts, hstrip, hrf, h1']

/-- The C10 witness event: no filler words, but a double internal space. -/
def eC10 : SpeechEvent :=
  { type := SpeechEventType.interimTranscript
    alternatives := [sampleAlt "hello  world".toList] }

theorem c10_witness :
    remove_fillers wUhUmm "hello  world".toList = normalize_ws "hello  world".toList ∧
    stream_step wUhUmm eC10 =
      some { type := SpeechEventType.interimTranscript
             alternatives := [{ language := "en".toList
                                text := normalize_ws "hello  world".toList
                                start_time := 0, end_time := 1, confidence := 1 }] } ∧
    normalize_ws "hello  world".toList = "hello world".toList ∧
    normalize_ws "hello  world".toList ≠ "hello  world".toList :=
  ⟨(c10_normalizes_even_without_fillers wUhUmm eC10 (sampleAlt "hello  world".toList)
      [] rfl rfl (by decide) (by decide)).1,
   (c10_normalizes_even_without_fillers wUhUmm eC10 (sampleAlt "hello  world".toList)
      [] rfl rfl (by decide) (by decide)).2,
   by decide, by decide⟩

end FillerRemover
